import Mathlib

/-!
Verification of the co-occurrence counting core (`rcpp_get_coocurrence_vector`).

The repository ships only the C++ header `src/rcpp_get_coocurrence_vector.h`,
which declares

  int triangular_index(int r, int c);
  NumericVector rcpp_get_coocurrence_vector(IntegerMatrix x,
                                            arma::imat directions,
                                            bool ordered = true,
                                            const int n_cores = 1);

The function bodies are absent, so the algorithm is modelled here from the
design document: token matrices are lists of rows of integers, the direction
set is a K×2 integer matrix, and the result is a dense vector of counts.
-/

namespace Cooc

/-- Number of rows of a token matrix. -/
def nrows (x : List (List ℤ)) : ℕ := x.length

/-- Number of columns of a token matrix (matrices are rectangular; the length
of the first row is the column count). -/
def ncols (x : List (List ℤ)) : ℕ := (x.headD []).length

/-- Token at cell `(r, c)`; out-of-range cells read as `0` ("no token"). -/
def tokenAt (x : List (List ℤ)) (r c : ℕ) : ℤ := (x.getD r []).getD c 0

/-- Modelled from the spec: the maximum feature count `V` is "discovered ...
up front" (§3) as the largest token identifier present in the matrix. -/
def maxToken (x : List (List ℤ)) : ℤ := x.flatten.foldr max 0

/-- Modelled from the spec: the body of `triangular_index` is missing from
`src` (only the prototype `int triangular_index(int r, int c);` is present).
§4.1 specifies the unordered index as "a closed-form enumeration of the
upper-triangular region, row-major over `r`, ascending `c ≥ r`" with closed
form `r·V − r·(r−1)/2 + (c − r)`.  That closed form enumerates the region
`0 ≤ r ≤ c ≤ V−1`; fed directly with 1-based identifiers (as the sentence in
§4.1 literally reads) it is neither injective (it sends `{1,V}` and `{2,2}`
to the same index) nor within the stated vector length `V·(V+1)/2` (it
reaches that length at `{V,V}`), contradicting the injectivity invariant of
§3 and the worked example of §8.  The mapper is therefore modelled on the
0-based normalized pair `r = min(a,b) − 1`, `c = max(a,b) − 1` (written out
below: `r·V − r·(r−1)/2 + (c − r)`), which satisfies §3, the enumeration
description of §4.1 and the example of §8 simultaneously.  The vocabulary
size `V` is a parameter because the specified closed form depends on it. -/
def triangular_index (V a b : ℤ) : ℤ :=
  (min a b - 1) * V - (min a b - 1) * (min a b - 1 - 1) / 2
    + ((max a b - 1) - (min a b - 1))

/-- Modelled from the spec: ordered mode index `(a−1)·V + (b−1)` (§4.1). -/
def ordered_index (V a b : ℤ) : ℤ := (a - 1) * V + (b - 1)

/-- Index selected by the mode flag (§4.3 step 3). -/
def pairIndex (ordered : Bool) (V a b : ℤ) : ℤ :=
  if ordered then ordered_index V a b else triangular_index V a b

/-- Displaced cell `(rr, cc)` lies within `[0, R) × [0, C)` (§4.2). -/
def inBounds (x : List (List ℤ)) (rr cc : ℤ) : Prop :=
  0 ≤ rr ∧ rr < (nrows x : ℤ) ∧ 0 ≤ cc ∧ cc < (ncols x : ℤ)

instance (x : List (List ℤ)) (rr cc : ℤ) : Decidable (inBounds x rr cc) := by
  unfold inBounds; infer_instance

/-- Modelled from the spec: one step of the Co-occurrence Accumulator
(§4.3): at anchor `(r, c)` with direction `d`, emit the token pair
`(a, b)` unless the anchor token is `0`, the displaced cell is out of
bounds (the silent-skip edge policy of §4.2), or the target token is `0`. -/
def emit (x : List (List ℤ)) (r c : ℕ) (d : ℤ × ℤ) : Option (ℤ × ℤ) :=
  let a := tokenAt x r c
  if a = 0 then none
  else
    let rr := (r : ℤ) + d.1
    let cc := (c : ℤ) + d.2
    if inBounds x rr cc then
      let b := tokenAt x rr.toNat cc.toNat
      if b = 0 then none else some (a, b)
    else none

/-- Token pairs emitted from one anchor cell over the whole direction set. -/
def pairsOfAnchor (x : List (List ℤ)) (dirs : List (ℤ × ℤ)) (r c : ℕ) :
    List (ℤ × ℤ) :=
  dirs.filterMap (emit x r c)

/-- Token pairs emitted from one matrix row (§4.3: every anchor column). -/
def pairsOfRow (x : List (List ℤ)) (dirs : List (ℤ × ℤ)) (r : ℕ) :
    List (ℤ × ℤ) :=
  (List.range (ncols x)).flatMap (pairsOfAnchor x dirs r)

/-- Token pairs emitted from a block of rows. -/
def pairsOfRows (x : List (List ℤ)) (dirs : List (ℤ × ℤ)) (rows : List ℕ) :
    List (ℤ × ℤ) :=
  rows.flatMap (pairsOfRow x dirs)

/-- Linear indices emitted from a block of rows (§4.3 step 3). -/
def indicesOfRows (x : List (List ℤ)) (dirs : List (ℤ × ℤ)) (ordered : Bool)
    (rows : List ℕ) : List ℤ :=
  (pairsOfRows x dirs rows).map (fun p => pairIndex ordered (maxToken x) p.1 p.2)

/-- Number of anchor cells of the whole matrix from which direction `d`
emits exactly the token pair `p` (a per-direction slice of §4.3). -/
def dirCount (x : List (List ℤ)) (d p : ℤ × ℤ) : ℕ :=
  ∑ q ∈ Finset.range (nrows x) ×ˢ Finset.range (ncols x),
    (if emit x q.1 q.2 d = some p then 1 else 0)

/-- Modelled from the spec: "Increment the accumulator at that index by 1"
(§4.3 step 4).  The vector's size never changes. -/
def incrAt (v : List ℕ) (i : ℤ) : List ℕ :=
  if 0 ≤ i then v.set i.toNat (v.getD i.toNat 0 + 1) else v

/-- A private accumulator pass: unit increments over a list of indices. -/
def accumulate (v : List ℕ) (es : List ℤ) : List ℕ := es.foldl incrAt v

/-- Element-wise sum of two count vectors (merge step of §4.4). -/
def addCounts (u v : List ℕ) : List ℕ := List.zipWith (· + ·) u v

/-- Sum the private per-worker vectors into the final result (§4.4). -/
def mergeCounts (L : ℕ) (ps : List (List ℕ)) : List ℕ :=
  ps.foldl addCounts (List.replicate L 0)

/-- Modelled from the spec: partition the row indices into `n` contiguous
balanced blocks, one per worker (§4.4); `n ≤ 1` degenerates to a single
block. -/
def splitIntoChunks : ℕ → List ℕ → List (List ℕ)
  | 0, l => [l]
  | 1, l => [l]
  | n + 2, l =>
      l.take ((l.length + n + 1) / (n + 2))
        :: splitIntoChunks (n + 1) (l.drop ((l.length + n + 1) / (n + 2)))

/-- Length of the Pair Count Vector (§3): `V·V` ordered, `V·(V+1)/2`
unordered, fixed before accumulation begins. -/
def vecLength (ordered : Bool) (Vn : ℕ) : ℕ :=
  if ordered then Vn * Vn else Vn * (Vn + 1) / 2

/-- Validation (§7): the `directions` matrix must have exactly two columns. -/
def validDirections (D : List (List ℤ)) : Bool :=
  D.all (fun row => row.length == 2)

/-- Validation (§7): only `0` and positive token identifiers are legal. -/
def validTokens (x : List (List ℤ)) : Bool :=
  x.all (fun row => row.all (fun t => decide (0 ≤ t)))

/-- Rows of the K×2 directions matrix as `(Δrow, Δcol)` pairs. -/
def dirPairs (D : List (List ℤ)) : List (ℤ × ℤ) :=
  D.map (fun row => (row.getD 0 0, row.getD 1 0))

/-- Replace every direction `(Δrow, Δcol)` by `(−Δrow, −Δcol)` (the
ordered/unordered consistency law of §8). -/
def negateDirections (D : List (List ℤ)) : List (List ℤ) :=
  D.map (fun row => row.map (fun t => -t))

/-- The merged Pair Count Vector for already-validated input: the row
indices are partitioned into `n_cores` contiguous blocks (non-positive
worker counts normalized to 1), each block is accumulated into a private
zero vector of the fixed length, and the private vectors are summed
element-wise (§4.4). -/
def coocCounts (x D : List (List ℤ)) (ordered : Bool) (n_cores : ℤ) :
    List ℕ :=
  mergeCounts (vecLength ordered (maxToken x).toNat)
    ((splitIntoChunks (if n_cores ≤ 0 then 1 else n_cores.toNat)
        (List.range (nrows x))).map
      (fun rows =>
        accumulate (List.replicate (vecLength ordered (maxToken x).toNat) 0)
          (indicesOfRows x (dirPairs D) ordered rows)))

/-- Modelled from the spec: the body of `rcpp_get_coocurrence_vector` is
missing from `src` (only the prototype is present).  Assembled from §4–§7:
validate up front (directions shape, then token sign) and fail fast on bad
input; otherwise return the merged Pair Count Vector. -/
def rcpp_get_coocurrence_vector (x D : List (List ℤ)) (ordered : Bool)
    (n_cores : ℤ) : Except String (List ℕ) :=
  if validDirections D then
    if validTokens x then Except.ok (coocCounts x D ordered n_cores)
    else Except.error "negative token identifier"
  else Except.error "directions matrix must have exactly two columns"

/-- `True` exactly on the error branch of the result. -/
def isError : Except String (List ℕ) → Bool
  | Except.error _ => true
  | Except.ok _ => false

end Cooc

namespace Cooc

/-- Twice the half of `n * (n - 1)` recovers it: the product is even. -/
theorem two_mul_half_pred (n : ℤ) : 2 * (n * (n - 1) / 2) = n * (n - 1) := by
  have h : Even (n * (n - 1)) := by
    have h0 := Int.even_mul_succ_self (n - 1)
    have h1 : (n - 1) * (n - 1 + 1) = n * (n - 1) := by ring
    rwa [h1] at h0
  obtain ⟨k, hk⟩ := h
  omega

/-- Twice the half of `n * (n + 1)` recovers it: the product is even. -/
theorem two_mul_half_succ (n : ℤ) : 2 * (n * (n + 1) / 2) = n * (n + 1) := by
  have h : Even (n * (n + 1)) := Int.even_mul_succ_self n
  obtain ⟨k, hk⟩ := h
  omega

/-- The unordered index is non-negative and below the unordered vector
length `V·(V+1)/2` whenever both identifiers lie in `[1, V]`. -/
theorem triangular_index_bounds (V a b : ℤ) (ha1 : 1 ≤ a) (haV : a ≤ V)
    (hb1 : 1 ≤ b) (hbV : b ≤ V) :
    0 ≤ triangular_index V a b ∧ triangular_index V a b < V * (V + 1) / 2 := by
  have hm1 : 1 ≤ min a b := le_min ha1 hb1
  have hmM : min a b ≤ max a b := min_le_max
  have hMV : max a b ≤ V := max_le haV hbV
  have h2 := two_mul_half_pred (min a b - 1)
  have hQ := two_mul_half_succ V
  unfold triangular_index
  constructor
  · nlinarith [mul_nonneg (show (0:ℤ) ≤ min a b - 1 by linarith)
      (show (0:ℤ) ≤ 2 * V - min a b + 2 by linarith)]
  · nlinarith [mul_nonneg (show (0:ℤ) ≤ V - min a b by linarith)
      (show (0:ℤ) ≤ V - min a b + 1 by linarith)]

/-- Incrementing one entry never changes the length of the accumulator. -/
theorem incrAt_length (v : List ℕ) (i : ℤ) : (incrAt v i).length = v.length := by
  unfold incrAt
  split <;> simp

/-- A whole accumulation pass never changes the length of the accumulator. -/
theorem accumulate_length (es : List ℤ) (v : List ℕ) :
    (accumulate v es).length = v.length := by
  induction es generalizing v with
  | nil => rfl
  | cons e es ih =>
      show (accumulate (incrAt v e) es).length = v.length
      rw [ih, incrAt_length]

/-- Reading entry `i` after one increment: the entry grows by one exactly
when the incremented index is `i`. -/
theorem getD_incrAt (v : List ℕ) (j : ℤ) (i : ℕ) (h : i < v.length) :
    (incrAt v j).getD i 0 = v.getD i 0 + (if j = (i : ℤ) then 1 else 0) := by
  unfold incrAt
  by_cases h0 : 0 ≤ j
  · rw [if_pos h0]
    by_cases hji : j = (i : ℤ)
    · have hti : j.toNat = i := by omega
      rw [if_pos hji, hti,
        List.getD_eq_getElem _ _ (by simpa using h),
        List.getElem_set_self, List.getD_eq_getElem _ _ h]
    · have hti : ¬ (j.toNat = i) := by omega
      rw [if_neg hji,
        List.getD_eq_getElem _ _ (by simpa using h),
        List.getElem_set, if_neg hti, List.getD_eq_getElem _ _ h]
      omega
  · rw [if_neg h0, if_neg (by omega : ¬ (j = (i : ℤ)))]
    omega

/-- Reading entry `i` after an accumulation pass: the entry grows by the
number of emissions of index `i`. -/
theorem getD_accumulate (es : List ℤ) (v : List ℕ) (i : ℕ) (h : i < v.length) :
    (accumulate v es).getD i 0 = v.getD i 0 + es.count (i : ℤ) := by
  induction es generalizing v with
  | nil => simp [accumulate]
  | cons e es ih =>
      show (accumulate (incrAt v e) es).getD i 0 = _
      rw [ih (incrAt v e) (by rw [incrAt_length]; exact h), getD_incrAt v e i h,
        List.count_cons]
      by_cases he : e = (i : ℤ)
      · simp [he]
        omega
      · simp [he]

/-- Every entry of the all-zero vector reads `0`. -/
theorem getD_replicate_zero (L i : ℕ) :
    (List.replicate L (0 : ℕ)).getD i 0 = 0 := by
  by_cases h : i < L
  · rw [List.getD_eq_getElem _ _ (by simpa using h)]
    simp
  · rw [List.getD_eq_default _ _ (by simpa using h)]

/-- Element-wise addition of equal-length vectors keeps the length. -/
theorem addCounts_length (u v : List ℕ) (h : v.length = u.length) :
    (addCounts u v).length = u.length := by
  unfold addCounts
  simp [h]

/-- The merge fold keeps the accumulator length when all private vectors
have that length. -/
theorem foldl_addCounts_length (ps : List (List ℕ)) (acc : List ℕ)
    (h : ∀ p ∈ ps, p.length = acc.length) :
    (ps.foldl addCounts acc).length = acc.length := by
  induction ps generalizing acc with
  | nil => rfl
  | cons p ps ih =>
      show (ps.foldl addCounts (addCounts acc p)).length = acc.length
      have hlen : (addCounts acc p).length = acc.length :=
        addCounts_length acc p (h p (List.mem_cons_self p ps))
      rw [ih (addCounts acc p) (fun q hq => by
        rw [hlen]; exact h q (List.mem_cons_of_mem p hq)), hlen]

/-- Entry `i` of an element-wise sum is the sum of the entries. -/
theorem getD_addCounts (u v : List ℕ) (i : ℕ) (h1 : i < u.length)
    (h2 : i < v.length) :
    (addCounts u v).getD i 0 = u.getD i 0 + v.getD i 0 := by
  unfold addCounts
  rw [List.getD_eq_getElem _ _ (by simpa using ⟨h1, h2⟩ : i < (List.zipWith (· + ·) u v).length),
    List.getElem_zipWith, List.getD_eq_getElem _ _ h1, List.getD_eq_getElem _ _ h2]

/-- Entry `i` of the merge fold is the accumulator entry plus the sum of
the corresponding entries of the private vectors. -/
theorem getD_foldl_addCounts (ps : List (List ℕ)) (acc : List ℕ) (i : ℕ)
    (hi : i < acc.length) (h : ∀ p ∈ ps, p.length = acc.length) :
    (ps.foldl addCounts acc).getD i 0 =
      acc.getD i 0 + (ps.map (fun p => p.getD i 0)).sum := by
  induction ps generalizing acc with
  | nil => simp
  | cons p ps ih =>
      show (ps.foldl addCounts (addCounts acc p)).getD i 0 = _
      have hp : p.length = acc.length := h p (List.mem_cons_self p ps)
      have hlen : (addCounts acc p).length = acc.length :=
        addCounts_length acc p hp
      rw [ih (addCounts acc p) (hlen ▸ hi) (fun q hq => by
          rw [hlen]; exact h q (List.mem_cons_of_mem p hq)),
        getD_addCounts acc p i hi (hp ▸ hi), List.map_cons, List.sum_cons]
      omega

/-- The merged vector has the fixed length `L`. -/
theorem mergeCounts_length (L : ℕ) (ps : List (List ℕ))
    (h : ∀ p ∈ ps, p.length = L) : (mergeCounts L ps).length = L := by
  unfold mergeCounts
  rw [foldl_addCounts_length ps (List.replicate L 0) (by simpa using h)]
  simp

/-- Entry `i < L` of the merged vector is the sum over the private vectors
of their entries `i`. -/
theorem getD_mergeCounts (L : ℕ) (ps : List (List ℕ)) (i : ℕ) (hi : i < L)
    (h : ∀ p ∈ ps, p.length = L) :
    (mergeCounts L ps).getD i 0 = (ps.map (fun p => p.getD i 0)).sum := by
  unfold mergeCounts
  rw [getD_foldl_addCounts ps (List.replicate L 0) i (by simpa using hi)
      (by simpa using h), getD_replicate_zero]
  omega

/-- Splitting into contiguous chunks loses and reorders nothing: the
concatenation of the chunks is the original row list. -/
theorem splitIntoChunks_flatten (n : ℕ) (l : List ℕ) :
    (splitIntoChunks n l).flatten = l := by
  induction n generalizing l with
  | zero => simp [splitIntoChunks]
  | succ m ih =>
      cases m with
      | zero => simp [splitIntoChunks]
      | succ k =>
          show (splitIntoChunks (k + 2) l).flatten = l
          rw [splitIntoChunks, List.flatten_cons, ih]
          exact List.take_append_drop _ l

/-- A row listed in some chunk is a row of the original list. -/
theorem mem_of_mem_splitIntoChunks (n : ℕ) (l : List ℕ) (c : List ℕ) (r : ℕ)
    (hc : c ∈ splitIntoChunks n l) (hr : r ∈ c) : r ∈ l := by
  rw [← splitIntoChunks_flatten n l]
  exact List.mem_flatten_of_mem hc hr

/-- Emission is row-block additive: the emissions of a concatenation of row
blocks are the concatenated emissions. -/
theorem indicesOfRows_append (x : List (List ℤ)) (dirs : List (ℤ × ℤ))
    (o : Bool) (l1 l2 : List ℕ) :
    indicesOfRows x dirs o (l1 ++ l2) =
      indicesOfRows x dirs o l1 ++ indicesOfRows x dirs o l2 := by
  unfold indicesOfRows pairsOfRows
  rw [List.flatMap_append, List.map_append]

/-- Summing per-chunk counts of an index equals counting it over the
emissions of the concatenated chunks. -/
theorem sum_count_chunks (x : List (List ℤ)) (dirs : List (ℤ × ℤ)) (o : Bool)
    (chunks : List (List ℕ)) (a : ℤ) :
    ((chunks.map (fun rows => (indicesOfRows x dirs o rows).count a))).sum =
      (indicesOfRows x dirs o chunks.flatten).count a := by
  induction chunks with
  | nil => simp [indicesOfRows, pairsOfRows]
  | cons c cs ih =>
      rw [List.map_cons, List.sum_cons, ih, List.flatten_cons,
        indicesOfRows_append, List.count_append]

/-- The merged Pair Count Vector is independent of the worker count: any
chunking merges to the single-worker result. -/
theorem coocCounts_eq_single (x D : List (List ℤ)) (o : Bool) (n : ℤ) :
    coocCounts x D o n = coocCounts x D o 1 := by
  unfold coocCounts
  have hone : splitIntoChunks (if (1:ℤ) ≤ 0 then 1 else (1:ℤ).toNat)
      (List.range (nrows x)) = [List.range (nrows x)] := by
    norm_num [splitIntoChunks]
  rw [hone]
  have hlen : ∀ p ∈ (splitIntoChunks (if n ≤ 0 then 1 else n.toNat)
      (List.range (nrows x))).map
        (fun rows =>
          accumulate (List.replicate (vecLength o (maxToken x).toNat) 0)
            (indicesOfRows x (dirPairs D) o rows)),
      p.length = vecLength o (maxToken x).toNat := by
    intro p hp
    rw [List.mem_map] at hp
    obtain ⟨rows, _, rfl⟩ := hp
    rw [accumulate_length]
    simp
  have hlen1 : ∀ p ∈ [accumulate (List.replicate (vecLength o (maxToken x).toNat) 0)
      (indicesOfRows x (dirPairs D) o (List.range (nrows x)))],
      p.length = vecLength o (maxToken x).toNat := by
    intro p hp
    rw [List.mem_singleton] at hp
    subst hp
    rw [accumulate_length]
    simp
  apply List.ext_getElem
  · rw [mergeCounts_length _ _ hlen, mergeCounts_length _ _ (by simpa using hlen1)]
  · intro i h1 h2
    have hiL : i < vecLength o (maxToken x).toNat := by
      rw [mergeCounts_length _ _ hlen] at h1
      exact h1
    rw [← List.getD_eq_getElem _ 0 h1, ← List.getD_eq_getElem _ 0 h2,
      getD_mergeCounts _ _ i hiL hlen, getD_mergeCounts _ _ i hiL (by simpa using hlen1)]
    rw [List.map_map, List.map_map]
    have hcount : ∀ (chs : List (List ℕ)),
        (chs.map ((fun p => p.getD i 0) ∘
          (fun rows =>
            accumulate (List.replicate (vecLength o (maxToken x).toNat) 0)
              (indicesOfRows x (dirPairs D) o rows)))).sum =
          (indicesOfRows x (dirPairs D) o chs.flatten).count (i : ℤ) := by
      intro chs
      have hmapeq : chs.map ((fun p => p.getD i 0) ∘
          (fun rows =>
            accumulate (List.replicate (vecLength o (maxToken x).toNat) 0)
              (indicesOfRows x (dirPairs D) o rows))) =
          chs.map (fun rows => (indicesOfRows x (dirPairs D) o rows).count (i : ℤ)) := by
        apply List.map_congr_left
        intro rows _
        show (accumulate (List.replicate (vecLength o (maxToken x).toNat) 0)
          (indicesOfRows x (dirPairs D) o rows)).getD i 0 = _
        rw [getD_accumulate _ _ i (by simpa using hiL), getD_replicate_zero]
        omega
      rw [hmapeq, sum_count_chunks]
    rw [hcount, hcount, splitIntoChunks_flatten]
    simp

/-- Claim C1: on the 1×3 token matrix `[[1,2,1]]` with the single direction
`(0,1)`, unordered mode and one worker, the discovered vocabulary is
`V = 2`, the unordered pair `{1,2}` occupies linear index `1` of the
length-3 Pair Count Vector, that entry equals `2`, and every other entry
equals `0`. -/
theorem unordered_example_counts :
    rcpp_get_coocurrence_vector [[1,2,1]] [[0,1]] false 1 = Except.ok [0,2,0]
    ∧ maxToken [[1,2,1]] = 2
    ∧ (triangular_index 2 1 2).toNat = 1 := by
  exact ⟨rfl, rfl, rfl⟩

/-- Claim C2, counterexample: at `V = 2`, `a = 1`, `b = 2` (so `r = min = 1`,
`c = max = 2`), the literal closed form of §4.1 evaluates to
`1·2 − 1·0/2 + (2−1) = 3`, but the index the mapper assigns to `{1,2}` is
`1`; moreover `3` is not even a legal position in the length-3 unordered
vector for `V = 2`. -/
theorem triangular_index_literal_formula_refuted :
    triangular_index 2 1 2 ≠ 1 * 2 - 1 * (1 - 1) / 2 + (2 - 1)
    ∧ triangular_index 2 1 2 = 1
    ∧ (1 * 2 - 1 * (1 - 1) / 2 + (2 - 1) : ℤ) = 3
    ∧ ¬ ((3 : ℤ) < 2 * (2 + 1) / 2) := by
  refine ⟨by decide, rfl, rfl, by decide⟩

/-- Claim C2, amended: for identifiers `a, b ∈ [1, V]` the unordered index
equals `r·V − r·(r−1)/2 + (c − r)` for the 0-based normalization
`r = min(a,b) − 1`, `c = max(a,b) − 1`, and that value lies within the
unordered vector, in `[0, V·(V+1)/2)`. -/
theorem triangular_index_closed_form (V a b : ℤ) (ha1 : 1 ≤ a) (haV : a ≤ V)
    (hb1 : 1 ≤ b) (hbV : b ≤ V) :
    triangular_index V a b =
      (min a b - 1) * V - (min a b - 1) * (min a b - 2) / 2
        + ((max a b - 1) - (min a b - 1))
    ∧ 0 ≤ triangular_index V a b
    ∧ triangular_index V a b < V * (V + 1) / 2 := by
  refine ⟨?_, (triangular_index_bounds V a b ha1 haV hb1 hbV).1,
    (triangular_index_bounds V a b ha1 haV hb1 hbV).2⟩
  unfold triangular_index
  rw [show (min a b - 1 - 1 : ℤ) = min a b - 2 from by ring]

/-- Witness for the amended claim C2 at `V = 3`, `a = 3`, `b = 2`. -/
theorem triangular_index_closed_form_witness :
    (1 ≤ (3:ℤ) ∧ (3:ℤ) ≤ 3 ∧ 1 ≤ (2:ℤ) ∧ (2:ℤ) ≤ 3)
    ∧ (triangular_index 3 3 2 =
        (min (3:ℤ) 2 - 1) * 3 - (min (3:ℤ) 2 - 1) * (min (3:ℤ) 2 - 2) / 2
          + ((max (3:ℤ) 2 - 1) - (min (3:ℤ) 2 - 1))
      ∧ 0 ≤ triangular_index 3 3 2
      ∧ triangular_index 3 3 2 < 3 * (3 + 1) / 2) :=
  ⟨⟨by decide, by decide, by decide, by decide⟩,
    triangular_index_closed_form 3 3 2 (by decide) (by decide) (by decide) (by decide)⟩

/-- Claim C3: the unordered index mapping is symmetric,
`triangular_index(a,b) = triangular_index(b,a)`; here proved for all
integer arguments, which subsumes the claimed range `[1, V]`. -/
theorem triangular_index_symm (V a b : ℤ) :
    triangular_index V a b = triangular_index V b a := by
  unfold triangular_index
  rw [min_comm, max_comm]

/-- Claim C4: in ordered mode the pair `(a, b)` is mapped to
`(a−1)·V + (b−1)`, and the mapping is injective on ordered pairs with
identifiers in `[1, V]` — in particular `(a,b)` and `(b,a)` receive
distinct indices whenever `a ≠ b`. -/
theorem ordered_index_formula_injective (V a b : ℤ) (ha1 : 1 ≤ a)
    (haV : a ≤ V) (hb1 : 1 ≤ b) (hbV : b ≤ V) :
    ordered_index V a b = (a - 1) * V + (b - 1)
    ∧ ∀ a2 b2 : ℤ, 1 ≤ a2 → a2 ≤ V → 1 ≤ b2 → b2 ≤ V → (a, b) ≠ (a2, b2) →
        ordered_index V a b ≠ ordered_index V a2 b2 := by
  refine ⟨rfl, ?_⟩
  intro a2 b2 ha2 ha2V hb2 hb2V hne heq
  unfold ordered_index at heq
  have key : (a - a2) * V = b2 - b := by linear_combination heq
  rcases lt_trichotomy a a2 with hlt | heqa | hgt
  · have h1 : 1 ≤ a2 - a := by linarith
    have h2 : 1 * V ≤ (a2 - a) * V := by
      apply mul_le_mul_of_nonneg_right h1
      linarith
    nlinarith
  · subst heqa
    have hb : b = b2 := by
      have h0 : (a - a) * V = 0 := by ring
      omega
    exact hne (by rw [hb])
  · have h1 : 1 ≤ a - a2 := by linarith
    have h2 : 1 * V ≤ (a - a2) * V := by
      apply mul_le_mul_of_nonneg_right h1
      linarith
    nlinarith

/-- Witness for claim C4 at `V = 2`, `a = 1`, `b = 2`. -/
theorem ordered_index_formula_injective_witness :
    (1 ≤ (1:ℤ) ∧ (1:ℤ) ≤ 2 ∧ 1 ≤ (2:ℤ) ∧ (2:ℤ) ≤ 2)
    ∧ (ordered_index 2 1 2 = (1 - 1) * 2 + (2 - 1)
      ∧ ∀ a2 b2 : ℤ, 1 ≤ a2 → a2 ≤ 2 → 1 ≤ b2 → b2 ≤ 2 →
          ((1:ℤ), (2:ℤ)) ≠ (a2, b2) →
          ordered_index 2 1 2 ≠ ordered_index 2 a2 b2) :=
  ⟨⟨by decide, by decide, by decide, by decide⟩,
    ordered_index_formula_injective 2 1 2 (by decide) (by decide) (by decide) (by decide)⟩

/-- Claim C9: the computation fails exactly when the directions matrix does
not have exactly two columns or some token identifier is negative; the
error branch carries no Pair Count Vector at all, so no partial result is
ever produced on failure. -/
theorem error_iff_invalid (x D : List (List ℤ)) (o : Bool) (n : ℤ) :
    isError (rcpp_get_coocurrence_vector x D o n) = true ↔
      (¬ (∀ row ∈ D, row.length = 2) ∨ ∃ row ∈ x, ∃ t ∈ row, t < 0) := by
  have hD : validDirections D = true ↔ ∀ row ∈ D, row.length = 2 := by
    simp [validDirections, List.all_eq_true]
  have hx : validTokens x = true ↔ ∀ row ∈ x, ∀ t ∈ row, 0 ≤ t := by
    simp [validTokens, List.all_eq_true]
  by_cases h1 : validDirections D = true
  · by_cases h2 : validTokens x = true
    · rw [rcpp_get_coocurrence_vector, if_pos h1, if_pos h2]
      simp only [isError]
      constructor
      · intro h; exact absurd h (by simp)
      · rintro (hbad | ⟨row, hrow, t, ht, hneg⟩)
        · exact absurd (hD.mp h1) hbad
        · have h0 := hx.mp h2 row hrow t ht
          omega
    · rw [rcpp_get_coocurrence_vector, if_pos h1, if_neg h2]
      simp only [isError, true_iff]
      right
      have h2x : ¬ ∀ row ∈ x, ∀ t ∈ row, 0 ≤ t := fun hall => h2 (hx.mpr hall)
      push_neg at h2x
      exact h2x
  · rw [rcpp_get_coocurrence_vector, if_neg h1]
    simp only [isError, true_iff]
    left
    exact fun hall => h1 (hD.mpr hall)

/-- Claim C10, counterexample: the unordered index of the pair `{2,2}` is
`2` when `V = 2` but `3` when `V = 3`, although both vocabularies satisfy
`V ≥ max(2,2)`; the index therefore cannot be a function of the two
identifiers alone. -/
theorem triangular_index_varies_with_V :
    triangular_index 2 2 2 = 2 ∧ triangular_index 3 2 2 = 3
    ∧ triangular_index 2 2 2 ≠ triangular_index 3 2 2 := by
  refine ⟨rfl, rfl, by decide⟩

/-- Claim C10, amended: the unordered mapper specified in §4.1 is a total
deterministic function of the two identifiers and the vocabulary size `V`,
and it genuinely depends on `V`: the index of the pair `{2,2}` equals `V`
itself. -/
theorem triangular_index_vocabulary_dependence (V : ℤ) :
    triangular_index V 2 2 = V := by
  unfold triangular_index
  norm_num

/-- All private accumulators have the fixed vector length. -/
theorem parts_length (x D : List (List ℤ)) (o : Bool) (chs : List (List ℕ)) :
    ∀ p ∈ chs.map (fun rows =>
        accumulate (List.replicate (vecLength o (maxToken x).toNat) 0)
          (indicesOfRows x (dirPairs D) o rows)),
      p.length = vecLength o (maxToken x).toNat := by
  intro p hp
  rw [List.mem_map] at hp
  obtain ⟨rows, _, rfl⟩ := hp
  rw [accumulate_length]
  simp

/-- Claim C6: the Pair Count Vector is identical for one worker and for any
worker count `k > 1`; the merged result does not depend on the row
partition. -/
theorem n_cores_deterministic (x D : List (List ℤ)) (o : Bool) (k : ℤ)
    (_hk : 1 < k) :
    rcpp_get_coocurrence_vector x D o k =
      rcpp_get_coocurrence_vector x D o 1 := by
  unfold rcpp_get_coocurrence_vector
  rw [coocCounts_eq_single]

/-- Witness for claim C6: two workers versus one on a concrete input. -/
theorem n_cores_deterministic_witness :
    (1 : ℤ) < 2 ∧
      rcpp_get_coocurrence_vector [[1,2,1]] [[0,1]] true 2 =
        rcpp_get_coocurrence_vector [[1,2,1]] [[0,1]] true 1 :=
  ⟨by decide, n_cores_deterministic [[1,2,1]] [[0,1]] true 2 (by decide)⟩

/-- Claim C7: on validated input the returned Pair Count Vector has length
`V·V` in ordered mode and `V·(V+1)/2` in unordered mode for the discovered
maximum feature count `V`; moreover neither a single increment nor a whole
accumulation pass ever changes a vector length, so the size fixed before
accumulation never changes. -/
theorem result_length (x D : List (List ℤ)) (o : Bool) (n : ℤ)
    (h1 : validDirections D = true) (h2 : validTokens x = true) :
    (∃ v, rcpp_get_coocurrence_vector x D o n = Except.ok v ∧
      v.length = (if o then (maxToken x).toNat * (maxToken x).toNat
        else (maxToken x).toNat * ((maxToken x).toNat + 1) / 2))
    ∧ (∀ (w : List ℕ) (j : ℤ), (incrAt w j).length = w.length)
    ∧ (∀ (w : List ℕ) (es : List ℤ), (accumulate w es).length = w.length) := by
  refine ⟨⟨coocCounts x D o n, ?_, ?_⟩, fun w j => incrAt_length w j,
    fun w es => accumulate_length es w⟩
  · unfold rcpp_get_coocurrence_vector
    rw [if_pos h1, if_pos h2]
  · show (coocCounts x D o n).length = _
    unfold coocCounts
    rw [mergeCounts_length _ _ (parts_length x D o _)]
    rfl

/-- Witness for claim C7 on a concrete validated input. -/
theorem result_length_witness :
    (validDirections [[0,1]] = true ∧ validTokens [[1,2,1]] = true)
    ∧ ((∃ v, rcpp_get_coocurrence_vector [[1,2,1]] [[0,1]] false 1 = Except.ok v ∧
        v.length = (if false then (maxToken [[1,2,1]]).toNat * (maxToken [[1,2,1]]).toNat
          else (maxToken [[1,2,1]]).toNat * ((maxToken [[1,2,1]]).toNat + 1) / 2))
      ∧ (∀ (w : List ℕ) (j : ℤ), (incrAt w j).length = w.length)
      ∧ (∀ (w : List ℕ) (es : List ℤ), (accumulate w es).length = w.length)) :=
  ⟨⟨by decide, by decide⟩,
    result_length [[1,2,1]] [[0,1]] false 1 (by decide) (by decide)⟩

/-- A zero anchor token emits nothing (§4.3 step 1). -/
theorem emit_eq_none_of_anchor_zero (x : List (List ℤ)) (r c : ℕ) (d : ℤ × ℤ)
    (h : tokenAt x r c = 0) : emit x r c d = none := by
  simp [emit, h]

/-- An out-of-bounds displaced cell emits nothing (§4.2). -/
theorem emit_eq_none_of_oob (x : List (List ℤ)) (r c : ℕ) (d : ℤ × ℤ)
    (h : ¬ inBounds x ((r : ℤ) + d.1) ((c : ℤ) + d.2)) :
    emit x r c d = none := by
  by_cases ha : tokenAt x r c = 0
  · simp [emit, ha]
  · simp [emit, ha, h]

/-- If every token of the matrix is `0`, every cell reads `0`. -/
theorem tokenAt_eq_zero_of_all_zero (x : List (List ℤ))
    (h : ∀ row ∈ x, ∀ t ∈ row, t = 0) (r c : ℕ) : tokenAt x r c = 0 := by
  unfold tokenAt
  by_cases hr : r < x.length
  · rw [List.getD_eq_getElem x [] hr]
    by_cases hc : c < x[r].length
    · rw [List.getD_eq_getElem x[r] 0 hc]
      exact h x[r] (List.getElem_mem hr) x[r][c] (List.getElem_mem hc)
    · rw [List.getD_eq_default x[r] 0 (by omega)]
  · rw [List.getD_eq_default x [] (by omega)]
    simp

/-- If every anchor-direction combination emits nothing, the emission list
of any row block is empty. -/
theorem indicesOfRows_eq_nil (x : List (List ℤ)) (dirs : List (ℤ × ℤ))
    (o : Bool) (rows : List ℕ)
    (h : ∀ r ∈ rows, ∀ c, c < ncols x → ∀ d ∈ dirs, emit x r c d = none) :
    indicesOfRows x dirs o rows = [] := by
  have hp : pairsOfRows x dirs rows = [] := by
    unfold pairsOfRows pairsOfRow pairsOfAnchor
    rw [List.flatMap_eq_nil_iff]
    intro r hr
    rw [List.flatMap_eq_nil_iff]
    intro c hc
    rw [List.filterMap_eq_nil_iff]
    intro d hd
    exact h r hr c (List.mem_range.mp hc) d hd
  unfold indicesOfRows
  rw [hp]
  rfl

/-- Claim C8, counterexample: with every token `0` but a malformed
directions matrix (three columns), the call does not succeed — the up-front
validation of §7 rejects it — so the all-zero antecedent alone does not
guarantee an all-zero result vector. -/
theorem all_zero_tokens_invalid_directions :
    (∀ row ∈ [([0] : List ℤ)], ∀ t ∈ row, t = 0)
    ∧ isError (rcpp_get_coocurrence_vector [[0]] [[0,1,2]] false 1) = true := by
  refine ⟨by decide, rfl⟩

/-- Claim C8, amended: on input that passes the up-front validation, if
every token is `0`, or the Direction Set is empty, or every direction
displaces every anchor cell out of bounds, the call succeeds and returns an
all-zero Pair Count Vector. -/
theorem edge_inputs_zero_vector (x D : List (List ℤ)) (o : Bool) (n : ℤ)
    (h1 : validDirections D = true) (h2 : validTokens x = true)
    (h : (∀ row ∈ x, ∀ t ∈ row, t = 0) ∨ D = [] ∨
      (∀ r, r < nrows x → ∀ c, c < ncols x → ∀ d ∈ dirPairs D,
        ¬ inBounds x ((r : ℤ) + d.1) ((c : ℤ) + d.2))) :
    ∃ v, rcpp_get_coocurrence_vector x D o n = Except.ok v ∧ ∀ t ∈ v, t = 0 := by
  refine ⟨coocCounts x D o n, ?_, ?_⟩
  · unfold rcpp_get_coocurrence_vector
    rw [if_pos h1, if_pos h2]
  · have hnil : ∀ rows ∈ splitIntoChunks (if n ≤ 0 then 1 else n.toNat)
        (List.range (nrows x)), indicesOfRows x (dirPairs D) o rows = [] := by
      intro rows hrows
      apply indicesOfRows_eq_nil
      intro r hr c hc d hd
      rcases h with hz | hD | hoob
      · exact emit_eq_none_of_anchor_zero x r c d (tokenAt_eq_zero_of_all_zero x hz r c)
      · rw [hD] at hd
        simp [dirPairs] at hd
      · have hrn : r < nrows x :=
          List.mem_range.mp (mem_of_mem_splitIntoChunks _ _ rows r hrows hr)
        exact emit_eq_none_of_oob x r c d (hoob r hrn c hc d hd)
    intro t ht
    obtain ⟨i, hilt, hEq⟩ := List.mem_iff_getElem.mp ht
    have hL : (coocCounts x D o n).length = vecLength o (maxToken x).toNat := by
      unfold coocCounts
      exact mergeCounts_length _ _ (parts_length x D o _)
    have hiL : i < vecLength o (maxToken x).toNat := by rw [← hL]; exact hilt
    have hval : (coocCounts x D o n).getD i 0 = 0 := by
      unfold coocCounts
      rw [getD_mergeCounts _ _ i hiL (parts_length x D o _), List.map_map]
      have hz : ∀ rows ∈ splitIntoChunks (if n ≤ 0 then 1 else n.toNat)
          (List.range (nrows x)),
          ((fun p => p.getD i 0) ∘ (fun rows =>
            accumulate (List.replicate (vecLength o (maxToken x).toNat) 0)
              (indicesOfRows x (dirPairs D) o rows))) rows = 0 := by
        intro rows hrows
        show (accumulate (List.replicate (vecLength o (maxToken x).toNat) 0)
          (indicesOfRows x (dirPairs D) o rows)).getD i 0 = 0
        rw [hnil rows hrows]
        show (List.replicate (vecLength o (maxToken x).toNat) (0:ℕ)).getD i 0 = 0
        exact getD_replicate_zero _ i
      rw [List.map_congr_left hz]
      simp
    rw [← hEq, ← List.getD_eq_getElem _ 0 hilt, hval]

/-- Distributing a list sum over a pointwise sum of maps. -/
theorem sum_map_add (m : List β) (g h : β → ℕ) :
    (m.map (fun b => g b + h b)).sum = (m.map g).sum + (m.map h).sum := by
  induction m with
  | nil => simp
  | cons b m ih => simp [ih]; omega

/-- A sum over `List.range` is the corresponding `Finset.range` sum. -/
theorem sum_map_range (n : ℕ) (f : ℕ → ℕ) :
    ((List.range n).map f).sum = ∑ i ∈ Finset.range n, f i := by
  induction n with
  | zero => simp
  | succ m ih =>
      rw [List.range_succ, List.map_append, List.sum_append,
        Finset.sum_range_succ, ih]
      simp

/-- A list sum of zeros is zero. -/
theorem sum_map_zero (m : List β) : (m.map (fun _ => (0 : ℕ))).sum = 0 := by
  induction m with
  | nil => rfl
  | cons b m ih => rw [List.map_cons, List.sum_cons, ih]

/-- Interchange of two nested list sums. -/
theorem sum_map_swap (l : List α) (m : List β) (f : α → β → ℕ) :
    (l.map (fun a => (m.map (f a)).sum)).sum =
      (m.map (fun b => (l.map (fun a => f a b)).sum)).sum := by
  induction l with
  | nil =>
      simp only [List.map_nil, List.sum_nil]
      exact (sum_map_zero m).symm
  | cons a l ih =>
      rw [List.map_cons, List.sum_cons, ih, ← sum_map_add]
      apply congrArg
      apply List.map_congr_left
      intro b _
      simp

/-- A `countP` is the sum of its indicator over the list. -/
theorem countP_eq_sum_map (l : List α) (P : α → Bool) :
    l.countP P = (l.map (fun a => if P a then 1 else 0)).sum := by
  induction l with
  | nil => simp
  | cons a l ih =>
      rw [List.countP_cons, List.map_cons, List.sum_cons, ih]
      by_cases h : P a
      · simp [h]
        omega
      · simp [h]

/-- Counting an element of a `filterMap` as an indicator sum over sources. -/
theorem count_filterMap_eq_sum {β : Type} [BEq β] [LawfulBEq β]
    [DecidableEq β] (f : α → Option β) (l : List α) (p : β) :
    (l.filterMap f).count p = (l.map (fun a => if f a = some p then 1 else 0)).sum := by
  rw [List.count_filterMap, countP_eq_sum_map]
  apply congrArg
  apply List.map_congr_left
  intro a _
  by_cases h : f a = some p
  · simp [h]
  · simp [h]

/-- Counting over a `flatMap` block by block. -/
theorem count_flatMap {β : Type} [BEq β] (l : List α) (f : α → List β)
    (p : β) :
    (l.flatMap f).count p = (l.map (fun a => (f a).count p)).sum := by
  induction l with
  | nil => simp
  | cons a l ih => simp [List.flatMap_cons, List.count_append, ih]

/-- Counting an image value as a `countP` over preimages. -/
theorem count_map_eq_countP (l : List (ℤ × ℤ)) (f : ℤ × ℤ → ℤ) (y : ℤ) :
    (l.map f).count y = l.countP (fun p => f p == y) := by
  rw [List.count, List.countP_map]
  rfl

/-- `getD` with default `0` commutes with negating a direction row. -/
theorem getD_map_neg (row : List ℤ) (i : ℕ) :
    (row.map (fun t => -t)).getD i 0 = -(row.getD i 0) := by
  induction row generalizing i with
  | nil => simp
  | cons h t ih =>
      cases i with
      | zero => simp
      | succ j => simpa using ih j

/-- Characterization of a successful emission (§4.2–§4.3): direction `d`
emits `(a, b)` at anchor `(r, c)` exactly when the anchor token is the
nonzero `a`, the displaced cell is in bounds and its token is the nonzero
`b`. -/
theorem emit_eq_some_iff (x : List (List ℤ)) (r c : ℕ) (d : ℤ × ℤ) (a b : ℤ) :
    emit x r c d = some (a, b) ↔
      tokenAt x r c = a ∧ a ≠ 0 ∧
      inBounds x ((r : ℤ) + d.1) ((c : ℤ) + d.2) ∧
      tokenAt x ((r : ℤ) + d.1).toNat ((c : ℤ) + d.2).toNat = b ∧ b ≠ 0 := by
  simp only [emit]
  by_cases h0 : tokenAt x r c = 0
  · rw [if_pos h0]
    constructor
    · intro hc
      cases hc
    · rintro ⟨ha, hne, -⟩
      exact absurd (ha ▸ h0) hne
  · rw [if_neg h0]
    by_cases hb : inBounds x ((r : ℤ) + d.1) ((c : ℤ) + d.2)
    · rw [if_pos hb]
      by_cases hz : tokenAt x ((r : ℤ) + d.1).toNat ((c : ℤ) + d.2).toNat = 0
      · rw [if_pos hz]
        constructor
        · intro hc
          cases hc
        · rintro ⟨-, -, -, hb2, hne2⟩
          exact absurd (hb2 ▸ hz) hne2
      · rw [if_neg hz]
        constructor
        · intro hsome
          have h12 := Option.some.inj hsome
          have h1 : tokenAt x r c = a := congrArg Prod.fst h12
          have h2 : tokenAt x ((r : ℤ) + d.1).toNat ((c : ℤ) + d.2).toNat = b :=
            congrArg Prod.snd h12
          exact ⟨h1, h1 ▸ h0, hb, h2, h2 ▸ hz⟩
        · rintro ⟨h1, -, -, h2, -⟩
          rw [h1, h2]
    · rw [if_neg hb]
      constructor
      · intro hc
        cases hc
      · rintro ⟨-, -, hbb, -⟩
        exact absurd hbb hb

/-- Any member of a list is bounded by the fold of `max` seeded at `0`. -/
theorem le_foldr_max (l : List ℤ) (t : ℤ) (h : t ∈ l) : t ≤ l.foldr max 0 := by
  induction l with
  | nil => cases h
  | cons a l ih =>
      rcases List.mem_cons.mp h with rfl | hm
      · exact le_max_left _ _
      · exact le_trans (ih hm) (le_max_right _ _)

/-- The discovered maximum feature count is never negative. -/
theorem maxToken_nonneg (x : List (List ℤ)) : 0 ≤ maxToken x := by
  unfold maxToken
  induction x.flatten with
  | nil => exact le_refl 0
  | cons a l ih => exact le_trans ih (le_max_right _ _)

/-- A nonzero cell read is an actual matrix entry, hence (on validated
input) a positive identifier bounded by the discovered `V`. -/
theorem tokenAt_pos_le_max (x : List (List ℤ)) (hx : validTokens x = true)
    (r c : ℕ) (h : tokenAt x r c ≠ 0) :
    1 ≤ tokenAt x r c ∧ tokenAt x r c ≤ maxToken x := by
  have hmem : tokenAt x r c ∈ x.flatten := by
    unfold tokenAt at h ⊢
    by_cases hr : r < x.length
    · rw [List.getD_eq_getElem x [] hr] at h ⊢
      by_cases hc : c < x[r].length
      · rw [List.getD_eq_getElem x[r] 0 hc]
        exact List.mem_flatten_of_mem (List.getElem_mem hr) (List.getElem_mem hc)
      · rw [List.getD_eq_default x[r] 0 (by omega)] at h
        exact absurd rfl h
    · rw [List.getD_eq_default x [] (by omega)] at h
      simp at h
  constructor
  · have hall : ∀ row ∈ x, ∀ t ∈ row, 0 ≤ t := by
      simpa [validTokens, List.all_eq_true] using hx
    obtain ⟨row, hrow, hmem2⟩ := List.mem_flatten.mp hmem
    have h0 := hall row hrow _ hmem2
    omega
  · exact le_foldr_max _ _ hmem

/-- Every emitted token pair lies in `[1, V] × [1, V]` on validated input. -/
theorem mem_pairs_token_range (x : List (List ℤ)) (dirs : List (ℤ × ℤ))
    (rows : List ℕ) (p : ℤ × ℤ) (hx : validTokens x = true)
    (hp : p ∈ pairsOfRows x dirs rows) :
    1 ≤ p.1 ∧ p.1 ≤ maxToken x ∧ 1 ≤ p.2 ∧ p.2 ≤ maxToken x := by
  unfold pairsOfRows pairsOfRow pairsOfAnchor at hp
  obtain ⟨r, -, hp⟩ := List.mem_flatMap.mp hp
  obtain ⟨c, -, hp⟩ := List.mem_flatMap.mp hp
  obtain ⟨d, -, hd⟩ := List.mem_filterMap.mp hp
  obtain ⟨a, b⟩ := p
  rw [emit_eq_some_iff] at hd
  obtain ⟨h1, h2, -, h4, h5⟩ := hd
  have hb1 := tokenAt_pos_le_max x hx r c (h1 ▸ h2)
  have hb2 := tokenAt_pos_le_max x hx _ _ (h4 ▸ h5)
  rw [h1] at hb1
  rw [h4] at hb2
  exact ⟨hb1.1, hb1.2, hb2.1, hb2.2⟩

/-- The ordered index lies in `[0, V·V)` for identifiers in `[1, V]`. -/
theorem ordered_index_bounds (V a b : ℤ) (ha1 : 1 ≤ a) (haV : a ≤ V)
    (hb1 : 1 ≤ b) (hbV : b ≤ V) :
    0 ≤ ordered_index V a b ∧ ordered_index V a b < V * V := by
  unfold ordered_index
  constructor
  · nlinarith [mul_nonneg (show (0:ℤ) ≤ a - 1 by linarith)
      (show (0:ℤ) ≤ V by linarith)]
  · nlinarith [mul_le_mul_of_nonneg_right (show a - 1 ≤ V - 1 by linarith)
      (show (0:ℤ) ≤ V by linarith)]

/-- The ordered index determines the ordered pair on `[1, V] × [1, V]`. -/
theorem ordered_index_inj (V a b a2 b2 : ℤ) (ha1 : 1 ≤ a) (haV : a ≤ V)
    (hb1 : 1 ≤ b) (hbV : b ≤ V) (ha21 : 1 ≤ a2) (ha2V : a2 ≤ V)
    (hb21 : 1 ≤ b2) (hb2V : b2 ≤ V)
    (heq : ordered_index V a b = ordered_index V a2 b2) :
    a = a2 ∧ b = b2 := by
  unfold ordered_index at heq
  have key : (a - a2) * V = b2 - b := by linear_combination heq
  rcases lt_trichotomy a a2 with hlt | heqa | hgt
  · have h1 : 1 ≤ a2 - a := by linarith
    have h2 : 1 * V ≤ (a2 - a) * V :=
      mul_le_mul_of_nonneg_right h1 (by linarith)
    nlinarith
  · constructor
    · exact heqa
    · subst heqa
      have h0 : (a - a) * V = 0 := by ring
      omega
  · have h1 : 1 ≤ a - a2 := by linarith
    have h2 : 1 * V ≤ (a - a2) * V :=
      mul_le_mul_of_nonneg_right h1 (by linarith)
    nlinarith

/-- Strict growth of the unordered enumeration across min-rows. -/
theorem triangular_aux_mono (V m M m2 M2 : ℤ) (_hm1 : 1 ≤ m) (_hmM : m ≤ M)
    (hMV : M ≤ V) (_hm21 : 1 ≤ m2) (hm2M : m2 ≤ M2) (hM2V : M2 ≤ V)
    (hlt : m < m2) :
    (m - 1) * V - (m - 1) * (m - 1 - 1) / 2 + ((M - 1) - (m - 1)) <
      (m2 - 1) * V - (m2 - 1) * (m2 - 1 - 1) / 2 + ((M2 - 1) - (m2 - 1)) := by
  have E1 := two_mul_half_pred (m - 1)
  have E2 := two_mul_half_pred (m2 - 1)
  have h1 : 0 ≤ (m2 - m - 1) * (V - m2) :=
    mul_nonneg (by linarith) (by linarith)
  have h2 : (m2 - m) ≤ (m2 - m) * (m2 - m) :=
    le_mul_of_one_le_left (by linarith) (by linarith)
  nlinarith [E1, E2, h1, h2]

/-- The unordered index determines the normalized pair on `[1, V]²`. -/
theorem triangular_index_inj (V a b a2 b2 : ℤ) (ha1 : 1 ≤ a) (haV : a ≤ V)
    (hb1 : 1 ≤ b) (hbV : b ≤ V) (ha21 : 1 ≤ a2) (ha2V : a2 ≤ V)
    (hb21 : 1 ≤ b2) (hb2V : b2 ≤ V)
    (heq : triangular_index V a b = triangular_index V a2 b2) :
    min a b = min a2 b2 ∧ max a b = max a2 b2 := by
  have hm1 : 1 ≤ min a b := le_min ha1 hb1
  have hmM : min a b ≤ max a b := min_le_max
  have hMV : max a b ≤ V := max_le haV hbV
  have hm21 : 1 ≤ min a2 b2 := le_min ha21 hb21
  have hm2M : min a2 b2 ≤ max a2 b2 := min_le_max
  have hM2V : max a2 b2 ≤ V := max_le ha2V hb2V
  unfold triangular_index at heq
  rcases lt_trichotomy (min a b) (min a2 b2) with hlt | heqm | hgt
  · exact absurd heq (ne_of_lt
      (triangular_aux_mono V (min a b) (max a b) (min a2 b2) (max a2 b2)
        hm1 hmM hMV hm21 hm2M hM2V hlt))
  · refine ⟨heqm, ?_⟩
    rw [heqm] at heq
    omega
  · exact absurd heq.symm (ne_of_lt
      (triangular_aux_mono V (min a2 b2) (max a2 b2) (min a b) (max a b)
        hm21 hm2M hM2V hm1 hmM hMV hgt))

/-- Two pairs with equal min and max agree up to swapping. -/
theorem pair_eq_of_minmax (u v s t : ℤ) (h1 : min u v = min s t)
    (h2 : max u v = max s t) : (u = s ∧ v = t) ∨ (u = t ∧ v = s) := by
  omega

/-- Negating the direction rows preserves the two-column validation. -/
theorem validDirections_neg (D : List (List ℤ)) :
    validDirections (negateDirections D) = validDirections D := by
  unfold validDirections negateDirections
  rw [List.all_map]
  apply congrArg
  funext row
  simp

/-- The direction pairs of the negated matrix are the negated pairs. -/
theorem dirPairs_neg (D : List (List ℤ)) :
    dirPairs (negateDirections D) =
      (dirPairs D).map (fun d => (-d.1, -d.2)) := by
  unfold dirPairs negateDirections
  rw [List.map_map, List.map_map]
  apply List.map_congr_left
  intro row _
  show ((row.map (fun t => -t)).getD 0 0, (row.map (fun t => -t)).getD 1 0) = _
  rw [getD_map_neg, getD_map_neg]
  rfl

/-- The full-run count of a token pair decomposes into per-direction anchor
counts. -/
theorem count_pairs_full (x : List (List ℤ)) (dirs : List (ℤ × ℤ))
    (p : ℤ × ℤ) :
    (pairsOfRows x dirs (List.range (nrows x))).count p =
      (dirs.map (fun d => dirCount x d p)).sum := by
  unfold pairsOfRows pairsOfRow pairsOfAnchor
  rw [count_flatMap]
  have step1 : (List.range (nrows x)).map
      (fun r => (((List.range (ncols x)).flatMap
        (fun c => dirs.filterMap (emit x r c))).count p)) =
      (List.range (nrows x)).map (fun r => ((List.range (ncols x)).map
        (fun c => (dirs.map
          (fun d => if emit x r c d = some p then 1 else 0)).sum)).sum) := by
    apply List.map_congr_left
    intro r _
    rw [count_flatMap]
    apply congrArg
    apply List.map_congr_left
    intro c _
    rw [count_filterMap_eq_sum]
  rw [step1]
  have step2 : (List.range (nrows x)).map (fun r => ((List.range (ncols x)).map
        (fun c => (dirs.map
          (fun d => if emit x r c d = some p then 1 else 0)).sum)).sum) =
      (List.range (nrows x)).map (fun r => (dirs.map
        (fun d => ((List.range (ncols x)).map
          (fun c => if emit x r c d = some p then 1 else 0)).sum)).sum) := by
    apply List.map_congr_left
    intro r _
    exact sum_map_swap _ _ _
  rw [step2, sum_map_swap]
  apply congrArg
  apply List.map_congr_left
  intro d _
  unfold dirCount
  rw [sum_map_range]
  calc ∑ r ∈ Finset.range (nrows x), ((List.range (ncols x)).map
        (fun c => if emit x r c d = some p then 1 else 0)).sum
      = ∑ r ∈ Finset.range (nrows x), ∑ c ∈ Finset.range (ncols x),
          (if emit x r c d = some p then 1 else 0) :=
        Finset.sum_congr rfl (fun r _ => sum_map_range _ _)
    _ = ∑ q ∈ Finset.range (nrows x) ×ˢ Finset.range (ncols x),
          (if emit x q.1 q.2 d = some p then 1 else 0) :=
        (Finset.sum_product' _ _ _).symm

/-- Reflection: the anchors from which `−d` emits `(a, b)` correspond, by
shifting along `d`, to the anchors from which `d` emits `(b, a)`. -/
theorem dirCount_neg (x : List (List ℤ)) (d : ℤ × ℤ) (a b : ℤ) :
    dirCount x (-d.1, -d.2) (a, b) = dirCount x d (b, a) := by
  unfold dirCount
  have hL : ∑ q ∈ (Finset.range (nrows x) ×ˢ Finset.range (ncols x)).filter
      (fun q => inBounds x ((q.1 : ℤ) + -d.1) ((q.2 : ℤ) + -d.2)),
        (if emit x q.1 q.2 (-d.1, -d.2) = some (a, b) then 1 else 0) =
      ∑ q ∈ Finset.range (nrows x) ×ˢ Finset.range (ncols x),
        (if emit x q.1 q.2 (-d.1, -d.2) = some (a, b) then 1 else 0) := by
    apply Finset.sum_filter_of_ne
    intro q _ hne
    by_cases hemit : emit x q.1 q.2 (-d.1, -d.2) = some (a, b)
    · rw [emit_eq_some_iff] at hemit
      exact hemit.2.2.1
    · rw [if_neg hemit] at hne
      exact absurd rfl hne
  have hR : ∑ q ∈ (Finset.range (nrows x) ×ˢ Finset.range (ncols x)).filter
      (fun q => inBounds x ((q.1 : ℤ) + d.1) ((q.2 : ℤ) + d.2)),
        (if emit x q.1 q.2 d = some (b, a) then 1 else 0) =
      ∑ q ∈ Finset.range (nrows x) ×ˢ Finset.range (ncols x),
        (if emit x q.1 q.2 d = some (b, a) then 1 else 0) := by
    apply Finset.sum_filter_of_ne
    intro q _ hne
    by_cases hemit : emit x q.1 q.2 d = some (b, a)
    · rw [emit_eq_some_iff] at hemit
      exact hemit.2.2.1
    · rw [if_neg hemit] at hne
      exact absurd rfl hne
  rw [← hL, ← hR]
  apply Finset.sum_nbij'
    (fun q : ℕ × ℕ => (((q.1 : ℤ) + -d.1).toNat, ((q.2 : ℤ) + -d.2).toNat))
    (fun q : ℕ × ℕ => (((q.1 : ℤ) + d.1).toNat, ((q.2 : ℤ) + d.2).toNat))
  · intro q hq
    simp only [Finset.mem_filter, Finset.mem_product, Finset.mem_range] at hq ⊢
    unfold inBounds at hq ⊢
    unfold nrows ncols at hq ⊢
    omega
  · intro q hq
    simp only [Finset.mem_filter, Finset.mem_product, Finset.mem_range] at hq ⊢
    unfold inBounds at hq ⊢
    unfold nrows ncols at hq ⊢
    omega
  · intro q hq
    simp only [Finset.mem_filter, Finset.mem_product, Finset.mem_range] at hq
    unfold inBounds at hq
    have h1 : (((((q.1 : ℤ) + -d.1).toNat : ℤ) + d.1).toNat) = q.1 := by omega
    have h2 : (((((q.2 : ℤ) + -d.2).toNat : ℤ) + d.2).toNat) = q.2 := by omega
    exact Prod.ext h1 h2
  · intro q hq
    simp only [Finset.mem_filter, Finset.mem_product, Finset.mem_range] at hq
    unfold inBounds at hq
    have h1 : (((((q.1 : ℤ) + d.1).toNat : ℤ) + -d.1).toNat) = q.1 := by omega
    have h2 : (((((q.2 : ℤ) + d.2).toNat : ℤ) + -d.2).toNat) = q.2 := by omega
    exact Prod.ext h1 h2
  · intro q hq
    simp only [Finset.mem_filter, Finset.mem_product, Finset.mem_range] at hq
    unfold inBounds at hq
    obtain ⟨⟨hq1, hq2⟩, hb1, hb2, hb3, hb4⟩ := hq
    have e1 : ((((q.1 : ℤ) + -d.1).toNat : ℤ)) + d.1 = (q.1 : ℤ) := by omega
    have e2 : ((((q.2 : ℤ) + -d.2).toNat : ℤ)) + d.2 = (q.2 : ℤ) := by omega
    apply if_congr _ rfl rfl
    rw [emit_eq_some_iff, emit_eq_some_iff]
    constructor
    · rintro ⟨g1, g2, g3, g4, g5⟩
      refine ⟨g4, g5, ?_, ?_, g2⟩
      · show inBounds x _ _
        rw [e1, e2]
        unfold inBounds nrows ncols at *
        omega
      · rw [e1, e2]
        have e3 : ((q.1 : ℤ)).toNat = q.1 := by omega
        have e4 : ((q.2 : ℤ)).toNat = q.2 := by omega
        rw [e3, e4]
        exact g1
    · rintro ⟨g1, g2, g3, g4, g5⟩
      rw [e1, e2] at g4
      have e3 : ((q.1 : ℤ)).toNat = q.1 := by omega
      have e4 : ((q.2 : ℤ)).toNat = q.2 := by omega
      rw [e3, e4] at g4
      refine ⟨g4, g5, ?_, g1, g2⟩
      unfold inBounds nrows ncols at *
      omega

/-- With one worker the vector entry at `i < L` is the number of emissions
of index `i` over the whole matrix. -/
theorem getD_coocCounts_single (x D : List (List ℤ)) (o : Bool) (i : ℕ)
    (hi : i < vecLength o (maxToken x).toNat) :
    (coocCounts x D o 1).getD i 0 =
      (indicesOfRows x (dirPairs D) o (List.range (nrows x))).count (i : ℤ) := by
  unfold coocCounts
  have h1 : (if (1 : ℤ) ≤ 0 then 1 else (1 : ℤ).toNat) = 1 := by norm_num
  rw [h1]
  have h2 : splitIntoChunks 1 (List.range (nrows x)) = [List.range (nrows x)] := rfl
  rw [h2, List.map_cons, List.map_nil]
  rw [getD_mergeCounts _ _ i hi ?hlen]
  case hlen =>
    intro p hp
    rw [List.mem_singleton] at hp
    subst hp
    rw [accumulate_length]
    simp
  rw [List.map_cons, List.map_nil, List.sum_cons, List.sum_nil]
  rw [getD_accumulate _ _ i (by simpa using hi), getD_replicate_zero]
  omega

/-- A `countP` whose predicate selects exactly one value is a `count`. -/
theorem countP_single {β : Type} [BEq β] [LawfulBEq β] (l : List β) (q : β)
    (P : β → Bool) (hP : ∀ p ∈ l, (P p = true ↔ p = q)) :
    l.countP P = l.count q := by
  induction l with
  | nil => simp
  | cons r l ih =>
      rw [List.countP_cons, List.count_cons,
        ih (fun p hp => hP p (List.mem_cons_of_mem r hp))]
      have hr := hP r (List.mem_cons_self r l)
      by_cases h : r = q
      · rw [if_pos (hr.mpr h), if_pos (by simp [h])]
      · rw [if_neg (fun hc => h (hr.mp hc)), if_neg (by simp [h])]

/-- A `countP` whose predicate selects exactly an unordered pair of two
distinct values splits into the two ordered counts. -/
theorem countP_pair_split (l : List (ℤ × ℤ)) (a b : ℤ) (hne : a ≠ b)
    (P : ℤ × ℤ → Bool)
    (hP : ∀ p ∈ l, (P p = true ↔ (p = (a, b) ∨ p = (b, a)))) :
    l.countP P = l.count (a, b) + l.count (b, a) := by
  induction l with
  | nil => simp
  | cons r l ih =>
      rw [List.countP_cons, List.count_cons, List.count_cons,
        ih (fun p hp => hP p (List.mem_cons_of_mem r hp))]
      have hr := hP r (List.mem_cons_self r l)
      by_cases h1 : r = (a, b)
      · have h2 : ¬ (r = (b, a)) := by
          rw [h1]
          intro hc
          exact hne (by simpa using congrArg Prod.fst hc)
        rw [if_pos (hr.mpr (Or.inl h1)), if_pos (by simp [h1]),
          if_neg (by simp [h2])]
        omega
      · by_cases h2 : r = (b, a)
        · rw [if_pos (hr.mpr (Or.inr h2)), if_neg (by simp [h1]),
            if_pos (by simp [h2])]
          omega
        · have hP0 : ¬ P r = true := by
            intro hc
            rcases hr.mp hc with hc1 | hc2
            · exact h1 hc1
            · exact h2 hc2
          rw [if_neg hP0, if_neg (by simp [h1]), if_neg (by simp [h2])]
          omega

/-- Claim C5, counterexample: on the matrix `[[1,1]]` with the single
direction `(0,1)`, the unordered count attributed to the diagonal pair
`{1,1}` is `1`, while the two ordered counts for `(1,1)` (with the
directions as given and with them negated) are `1` each, so the claimed sum
law fails for pairs with `a = b`: `1 ≠ 1 + 1`. -/
theorem unordered_consistency_diagonal :
    rcpp_get_coocurrence_vector [[1,1]] [[0,1]] false 1 = Except.ok [1]
    ∧ rcpp_get_coocurrence_vector [[1,1]] [[0,1]] true 1 = Except.ok [1]
    ∧ rcpp_get_coocurrence_vector [[1,1]] (negateDirections [[0,1]]) true 1 =
        Except.ok [1]
    ∧ (triangular_index 1 1 1).toNat = 0
    ∧ (ordered_index 1 1 1).toNat = 0
    ∧ ([1] : List ℕ).getD 0 0 ≠
        ([1] : List ℕ).getD 0 0 + ([1] : List ℕ).getD 0 0 := by
  refine ⟨rfl, rfl, rfl, rfl, rfl, by decide⟩

/-- Claim C5, amended: on validated input, for every unordered pair `{a,b}`
of distinct identifiers in `[1, V]`, the unordered count attributed to
`{a,b}` equals the sum of the ordered count for `(a,b)` with the Direction
Set as given and the ordered count for `(a,b)` with every direction
negated. -/
theorem unordered_ordered_consistency (x D : List (List ℤ))
    (h1 : validDirections D = true) (h2 : validTokens x = true) (a b : ℤ)
    (ha1 : 1 ≤ a) (haV : a ≤ maxToken x) (hb1 : 1 ≤ b)
    (hbV : b ≤ maxToken x) (hne : a ≠ b) :
    ∃ u o1 o2,
      rcpp_get_coocurrence_vector x D false 1 = Except.ok u ∧
      rcpp_get_coocurrence_vector x D true 1 = Except.ok o1 ∧
      rcpp_get_coocurrence_vector x (negateDirections D) true 1 =
        Except.ok o2 ∧
      u.getD (triangular_index (maxToken x) a b).toNat 0 =
        o1.getD (ordered_index (maxToken x) a b).toNat 0 +
          o2.getD (ordered_index (maxToken x) a b).toNat 0 := by
  refine ⟨coocCounts x D false 1, coocCounts x D true 1,
    coocCounts x (negateDirections D) true 1, ?_, ?_, ?_, ?_⟩
  · unfold rcpp_get_coocurrence_vector
    rw [if_pos h1, if_pos h2]
  · unfold rcpp_get_coocurrence_vector
    rw [if_pos h1, if_pos h2]
  · unfold rcpp_get_coocurrence_vector
    rw [if_pos (by rw [validDirections_neg]; exact h1), if_pos h2]
  · have hV0 : 0 ≤ maxToken x := maxToken_nonneg x
    have hVcast : (((maxToken x).toNat : ℤ)) = maxToken x :=
      Int.toNat_of_nonneg hV0
    obtain ⟨htri0, htriU⟩ := triangular_index_bounds (maxToken x) a b ha1 haV hb1 hbV
    obtain ⟨hord0, hordU⟩ := ordered_index_bounds (maxToken x) a b ha1 haV hb1 hbV
    have hTi : (triangular_index (maxToken x) a b).toNat <
        vecLength false (maxToken x).toNat := by
      show (triangular_index (maxToken x) a b).toNat <
        (maxToken x).toNat * ((maxToken x).toNat + 1) / 2
      have hmul : (((maxToken x).toNat * ((maxToken x).toNat + 1) : ℕ) : ℤ) =
          maxToken x * (maxToken x + 1) := by
        push_cast
        rw [hVcast]
      omega
    have hOi : (ordered_index (maxToken x) a b).toNat <
        vecLength true (maxToken x).toNat := by
      show (ordered_index (maxToken x) a b).toNat <
        (maxToken x).toNat * (maxToken x).toNat
      have hc : (((maxToken x).toNat * (maxToken x).toNat : ℕ) : ℤ) =
          maxToken x * maxToken x := by
        push_cast
        rw [hVcast]
      omega
    rw [getD_coocCounts_single x D false _ hTi,
      getD_coocCounts_single x D true _ hOi,
      getD_coocCounts_single x (negateDirections D) true _ hOi]
    rw [Int.toNat_of_nonneg htri0, Int.toNat_of_nonneg hord0]
    have hU : (indicesOfRows x (dirPairs D) false
          (List.range (nrows x))).count (triangular_index (maxToken x) a b) =
        (pairsOfRows x (dirPairs D) (List.range (nrows x))).count (a, b) +
          (pairsOfRows x (dirPairs D) (List.range (nrows x))).count (b, a) := by
      show ((pairsOfRows x (dirPairs D) (List.range (nrows x))).map
        (fun p => triangular_index (maxToken x) p.1 p.2)).count
          (triangular_index (maxToken x) a b) = _
      rw [count_map_eq_countP]
      apply countP_pair_split _ a b hne
      intro p hp
      have hrange := mem_pairs_token_range x (dirPairs D) _ p h2 hp
      constructor
      · intro hbeq
        have heq : triangular_index (maxToken x) p.1 p.2 =
            triangular_index (maxToken x) a b := by simpa using hbeq
        obtain ⟨hmin, hmax⟩ := triangular_index_inj (maxToken x) p.1 p.2 a b
          hrange.1 hrange.2.1 hrange.2.2.1 hrange.2.2.2 ha1 haV hb1 hbV heq
        rcases pair_eq_of_minmax p.1 p.2 a b hmin hmax with ⟨e1, e2⟩ | ⟨e1, e2⟩
        · exact Or.inl (Prod.ext e1 e2)
        · exact Or.inr (Prod.ext e1 e2)
      · rintro (rfl | rfl)
        · simp
        · simp [triangular_index_symm (maxToken x) b a]
    have hO1 : (indicesOfRows x (dirPairs D) true
          (List.range (nrows x))).count (ordered_index (maxToken x) a b) =
        (pairsOfRows x (dirPairs D) (List.range (nrows x))).count (a, b) := by
      show ((pairsOfRows x (dirPairs D) (List.range (nrows x))).map
        (fun p => ordered_index (maxToken x) p.1 p.2)).count
          (ordered_index (maxToken x) a b) = _
      rw [count_map_eq_countP]
      apply countP_single
      intro p hp
      have hrange := mem_pairs_token_range x (dirPairs D) _ p h2 hp
      constructor
      · intro hbeq
        have heq : ordered_index (maxToken x) p.1 p.2 =
            ordered_index (maxToken x) a b := by simpa using hbeq
        obtain ⟨e1, e2⟩ := ordered_index_inj (maxToken x) p.1 p.2 a b
          hrange.1 hrange.2.1 hrange.2.2.1 hrange.2.2.2 ha1 haV hb1 hbV heq
        exact Prod.ext e1 e2
      · rintro rfl
        simp
    have hO2 : (indicesOfRows x (dirPairs (negateDirections D)) true
          (List.range (nrows x))).count (ordered_index (maxToken x) a b) =
        (pairsOfRows x (dirPairs (negateDirections D))
          (List.range (nrows x))).count (a, b) := by
      show ((pairsOfRows x (dirPairs (negateDirections D))
        (List.range (nrows x))).map
          (fun p => ordered_index (maxToken x) p.1 p.2)).count
            (ordered_index (maxToken x) a b) = _
      rw [count_map_eq_countP]
      apply countP_single
      intro p hp
      have hrange := mem_pairs_token_range x (dirPairs (negateDirections D)) _
        p h2 hp
      constructor
      · intro hbeq
        have heq : ordered_index (maxToken x) p.1 p.2 =
            ordered_index (maxToken x) a b := by simpa using hbeq
        obtain ⟨e1, e2⟩ := ordered_index_inj (maxToken x) p.1 p.2 a b
          hrange.1 hrange.2.1 hrange.2.2.1 hrange.2.2.2 ha1 haV hb1 hbV heq
        exact Prod.ext e1 e2
      · rintro rfl
        simp
    have hrefl : (pairsOfRows x (dirPairs (negateDirections D))
          (List.range (nrows x))).count (a, b) =
        (pairsOfRows x (dirPairs D) (List.range (nrows x))).count (b, a) := by
      rw [count_pairs_full, count_pairs_full, dirPairs_neg, List.map_map]
      apply congrArg
      apply List.map_congr_left
      intro d _
      exact dirCount_neg x d a b
    rw [hU, hO1, hO2, hrefl]

/-- Witness for the amended claim C5 on a concrete validated input. -/
theorem unordered_ordered_consistency_witness :
    (validDirections [[0,1]] = true ∧ validTokens [[1,2,1]] = true ∧
      1 ≤ (1:ℤ) ∧ (1:ℤ) ≤ maxToken [[1,2,1]] ∧ 1 ≤ (2:ℤ) ∧
      (2:ℤ) ≤ maxToken [[1,2,1]] ∧ (1:ℤ) ≠ 2)
    ∧ ∃ u o1 o2,
      rcpp_get_coocurrence_vector [[1,2,1]] [[0,1]] false 1 = Except.ok u ∧
      rcpp_get_coocurrence_vector [[1,2,1]] [[0,1]] true 1 = Except.ok o1 ∧
      rcpp_get_coocurrence_vector [[1,2,1]] (negateDirections [[0,1]]) true 1 =
        Except.ok o2 ∧
      u.getD (triangular_index (maxToken [[1,2,1]]) 1 2).toNat 0 =
        o1.getD (ordered_index (maxToken [[1,2,1]]) 1 2).toNat 0 +
          o2.getD (ordered_index (maxToken [[1,2,1]]) 1 2).toNat 0 :=
  ⟨⟨by decide, by decide, by decide, by decide, by decide, by decide, by decide⟩,
    unordered_ordered_consistency [[1,2,1]] [[0,1]] (by decide) (by decide)
      1 2 (by decide) (by decide) (by decide) (by decide) (by decide)⟩

/-- Witness for the amended claim C8: empty Direction Set. -/
theorem edge_inputs_zero_vector_witness :
    (validDirections ([] : List (List ℤ)) = true ∧ validTokens [[1]] = true)
    ∧ ∃ v, rcpp_get_coocurrence_vector [[1]] [] false 1 = Except.ok v ∧
        ∀ t ∈ v, t = 0 :=
  ⟨⟨by decide, by decide⟩,
    edge_inputs_zero_vector [[1]] [] false 1 (by decide) (by decide)
      (Or.inr (Or.inl rfl))⟩

end Cooc
